import Mathlib

/-
Verification of the device-provisioning toolkit (commandset/).

Shallow embedding of the relay driver (reboot.py), the secure-debug session
(SecureDebug_Serial_MCU.py, mcu_util.py), the fastboot flasher (fastboot.py)
and the UART bootstrap loader (uartboot.py).  Strings are modelled as
List Char (UTF-8 lossy decoding of the ASCII wire traffic is the identity on
these inputs).  Side effects (HTTP requests, Modbus frames, file removals,
serial reads) are modelled as explicit event traces; the environment a
function runs against (lock availability, relay port bitmask, wget outcomes,
serial chunks) is passed as an explicit structure.
-/

/- ===================== shared string helpers ===================== -/

/-- Python `str.strip()`: drop whitespace from both ends. -/
def pyStrip (s : List Char) : List Char :=
  ((s.dropWhile Char.isWhitespace).reverse.dropWhile Char.isWhitespace).reverse

/-- Python `pat in s` for strings: substring test. -/
def containsSub (pat : List Char) : List Char → Bool
  | [] => pat.isPrefixOf []
  | s@(_ :: t) => pat.isPrefixOf s || containsSub pat t

/-- Number of (possibly overlapping) positions of `s` at which `pat` occurs. -/
def countOcc (pat : List Char) : List Char → Nat
  | [] => if pat.isPrefixOf [] then 1 else 0
  | s@(_ :: t) => (if pat.isPrefixOf s then 1 else 0) + countOcc pat t

/-- `pat` occurs in `s` at position `i`. -/
def occursAtB (pat s : List Char) (i : Nat) : Bool :=
  pat.isPrefixOf (s.drop i)

/-- The regex class `[0-9A-Fa-f]` used by `_extract_random_number`. -/
def isHexChar (c : Char) : Bool :=
  ('0' ≤ c && c ≤ '9') || ('A' ≤ c && c ≤ 'F') || ('a' ≤ c && c ≤ 'f')

/-- The regex class `[0-9]`. -/
def isDigitCh (c : Char) : Bool := '0' ≤ c && c ≤ '9'

/- ===================== relay driver (reboot.py) ===================== -/

/-- The three actions accepted by `BaseRelay.execute` (`_port_on`,
`_port_off`, `_port_reboot` all exist, so the `hasattr` check passes
exactly for these three names). -/
inductive RAction where
  | on
  | off
  | reboot
deriving DecidableEq

/-- Observable relay effects: lock acquisition/release against the shared
store, and the wire traffic of the three backends. -/
inductive REvent where
  | lockAcq (ok : Bool)
  | lockRel
  | httpGet (uwhexval : Nat)
  | coilRead (addr : Nat)
  | coilWrite (addr : Nat) (value : Bool)
  | modbusSend (addr : Nat) (turnOn : Bool)
deriving DecidableEq

/-- Events that reach the relay hardware (HTTP request, Modbus traffic). -/
def isWire : REvent → Bool
  | REvent.lockAcq _ => false
  | REvent.lockRel => false
  | _ => true

/-- Events that change a port state: an HTTP control request with a nonzero
`UWHEXVAL`, a coil write, or a raw Modbus ON/OFF frame.  (`UWHEXVAL=0` is the
pure status query issued by `__get_port_status`.) -/
def isToggle : REvent → Bool
  | REvent.httpGet v => v != 0
  | REvent.coilWrite _ _ => true
  | REvent.modbusSend _ _ => true
  | _ => false

/-- Lock acquisition or release. -/
def isLockEvent : REvent → Bool
  | REvent.lockAcq _ => true
  | REvent.lockRel => true
  | _ => false

/-- Scan a trace tracking whether the `carizon_relay` lock is held; `true`
iff every wire event happens while the lock is held. -/
def wireUnderLock : Bool → List REvent → Bool
  | _, [] => true
  | _, REvent.lockAcq ok :: t => wireUnderLock ok t
  | _, REvent.lockRel :: t => wireUnderLock false t
  | held, e :: t => (!isWire e || held) && wireUnderLock held t

/-- Environment of `Relay_default` (HTTP backend): outcome of
`relay_lock.acquire()`, the 16-bit port-status word returned in the HTTP
response body, the board's own `power_port`, and the operator's reply to the
confirmation prompt. -/
structure DefaultEnv where
  relayPort : Nat
  lockOk : Bool
  ports : Nat
  userInput : List Char

/-- `__get_port_status(port)`: bit `port-1` of the status word
(`ports_status >> (port-1) & 1`); `0` = ON, `1` = OFF. -/
def portBit (ports p : Nat) : Nat := ports >>> (p - 1) &&& 1

/-- `Relay_default._port_on`: `__port_ctrl(port)` (toggle request), then
`__get_port_status(port)` (query via `__port_ctrl(0)`); succeeds iff the
reported bit equals `PORT_ON = 0`. -/
def default_port_on (env : DefaultEnv) (p : Nat) : Bool × List REvent :=
  (portBit env.ports p == 0, [REvent.httpGet p, REvent.httpGet 0])

/-- `Relay_default._port_off`: as `_port_on`, success iff bit = `PORT_OFF = 1`. -/
def default_port_off (env : DefaultEnv) (p : Nat) : Bool × List REvent :=
  (portBit env.ports p == 1, [REvent.httpGet p, REvent.httpGet 0])

/-- `Relay_default._port_reboot`: `_port_off and not sleep(0.5) and _port_on`;
Python `and` short-circuits, so `_port_on` runs only when `_port_off`
returned truthy. -/
def default_port_reboot (env : DefaultEnv) (p : Nat) : Bool × List REvent :=
  let off := default_port_off env p
  if off.1 then
    let onr := default_port_on env p
    (onr.1, off.2 ++ onr.2)
  else (false, off.2)

/-- Dispatch of `getattr(self, f"_port_{action}")` for `Relay_default`. -/
def default_port_action (env : DefaultEnv) (a : RAction) (p : Nat) : Bool × List REvent :=
  match a with
  | RAction.on => default_port_on env p
  | RAction.off => default_port_off env p
  | RAction.reboot => default_port_reboot env p

/-- The interactive gate of `Relay_default.execute`: when the requested port
differs from the board's `power_port`, only a stripped, lowercased reply of
`y` lets the operation continue (`n` and anything else return `False`). -/
def confirmGate (env : DefaultEnv) (p : Nat) : Bool :=
  if p ≠ env.relayPort then (pyStrip env.userInput).map Char.toLower == ['y']
  else true

/-- `Relay_default.execute` (reboot.py lines 123-175) for an
already-resolved port argument `p` (see `resolvePort`): port-range check,
confirmation prompt, lock acquisition, idempotence shortcut on the reported
status, action dispatch, release in `finally`.  Returns the Python result
and the event trace. -/
def default_execute (env : DefaultEnv) (a : RAction) (p : Nat) : Bool × List REvent :=
  if 16 < p then (false, [])
  else if !confirmGate env p then (false, [])
  else if env.lockOk then
    let status := portBit env.ports p
    if status == 0 && a == RAction.on then
      (true, [REvent.lockAcq true, REvent.httpGet 0, REvent.lockRel])
    else if status == 1 && a == RAction.off then
      (true, [REvent.lockAcq true, REvent.httpGet 0, REvent.lockRel])
    else
      let r := default_port_action env a p
      (r.1, REvent.lockAcq true :: REvent.httpGet 0 :: (r.2 ++ [REvent.lockRel]))
  else (false, [REvent.lockAcq false])

/-- Environment of `Relay_zqwl` (Modbus-TCP library backend): the coil
states reported by `read_coils` and the outcome of `write_coil`. -/
structure ZqwlEnv where
  coils : Nat → Bool
  writeOk : Bool

/-- `Relay_zqwl._port_on`: coil address `port-1`; if the coil already reads
`False` (= ON) return success without writing, else `write_coil(value=False)`. -/
def zqwl_port_on (env : ZqwlEnv) (p : Nat) : Bool × List REvent :=
  let addr := p - 1
  if env.coils addr == false then (true, [REvent.coilRead addr])
  else (env.writeOk, [REvent.coilRead addr, REvent.coilWrite addr false])

/-- `Relay_zqwl._port_off`: symmetric, `True` coil = already OFF. -/
def zqwl_port_off (env : ZqwlEnv) (p : Nat) : Bool × List REvent :=
  let addr := p - 1
  if env.coils addr == true then (true, [REvent.coilRead addr])
  else (env.writeOk, [REvent.coilRead addr, REvent.coilWrite addr true])

/-- `Relay_zqwl._port_reboot`: off, sleep, then on (short-circuit as above). -/
def zqwl_port_reboot (env : ZqwlEnv) (p : Nat) : Bool × List REvent :=
  let off := zqwl_port_off env p
  if off.1 then
    let onr := zqwl_port_on env p
    (onr.1, off.2 ++ onr.2)
  else (false, off.2)

/-- `BaseRelay.execute` as inherited by `Relay_zqwl` (reboot.py lines
53-71): port-range check and direct dispatch — no lock, no confirmation. -/
def zqwl_execute (env : ZqwlEnv) (a : RAction) (p : Nat) : Bool × List REvent :=
  if 16 < p then (false, [])
  else
    match a with
    | RAction.on => zqwl_port_on env p
    | RAction.off => zqwl_port_off env p
    | RAction.reboot => zqwl_port_reboot env p

/-- Environment of `Relay_corx` (raw Modbus-TCP backend): whether the
socket send/receive round-trip succeeds. -/
structure CorxEnv where
  sendOk : Bool

/-- `Relay_corx._send_modbus_command`: always emits the hand-built frame
`000000000006 01 05 <port-1> <FF00|0000>`; success = non-error reception. -/
def corx_send_modbus (env : CorxEnv) (p : Nat) (turnOn : Bool) : Bool × List REvent :=
  (env.sendOk, [REvent.modbusSend (p - 1) turnOn])

/-- `Relay_corx._port_reboot`: off, sleep, then on (short-circuit). -/
def corx_port_reboot (env : CorxEnv) (p : Nat) : Bool × List REvent :=
  let off := corx_send_modbus env p false
  if off.1 then
    let onr := corx_send_modbus env p true
    (onr.1, off.2 ++ onr.2)
  else (false, off.2)

/-- `BaseRelay.execute` as inherited by `Relay_corx`: port-range check and
direct dispatch — no lock, no confirmation, no status read. -/
def corx_execute (env : CorxEnv) (a : RAction) (p : Nat) : Bool × List REvent :=
  if 16 < p then (false, [])
  else
    match a with
    | RAction.on => corx_send_modbus env p true
    | RAction.off => corx_send_modbus env p false
    | RAction.reboot => corx_port_reboot env p

/-- `port = port or self.relay_port` (reboot.py lines 57 and 124): Python
`or` substitutes the configured power port for both `None` and `0`. -/
def resolvePort (port : Option Int) (relayPort : Int) : Int :=
  match port with
  | none => relayPort
  | some v => if v == 0 then relayPort else v

/-- The port-range check `if port > self.MAX_PORT_NUM` applied to the
resolved port (reboot.py lines 58 and 125). -/
def portCheckRejects (port : Option Int) (relayPort : Int) : Bool :=
  16 < resolvePort port relayPort

/- ========== secure-debug session (SecureDebug_Serial_MCU.py, mcu_util.py) ========== -/

/-- Marker `Signature Verify Ok` checked by `Shell_SentSignatureCmd`. -/
def sigVerifyOkMarker : List Char := ("Signature Verify Ok").toList

/-- Marker `Debug mode ON!` checked by `UnlockMCU.__call__`. -/
def debugModeOnMarker : List Char := ("Debug mode ON!").toList

/-- Per-fragment acknowledgement `Successfully received data` required by
`UnlockMCU.__call__`. -/
def ackMarker : List Char := ("Successfully received data").toList

/-- Responsive-mode verdict of `SerialConnect.Shell_SentSignatureCmd`
(SecureDebug_Serial_MCU.py lines 338-351): `result` is the response to the
terminal signature fragment (`None` when `_send_command` failed); success is
`result and "Signature Verify Ok" in result`. -/
def shell_sent_signature_verdict (result : Option (List Char)) : Bool :=
  match result with
  | none => false
  | some r => !r.isEmpty && containsSub sigVerifyOkMarker r

/-- Verdict of `UnlockMCU.__call__` (mcu_util.py lines 55-67) as a function
of the response to the last signature chunk: `exit(1)` (modelled `none`)
when the chunk acknowledgement is missing, otherwise exit status determined
by `"Debug mode ON!" in result`. -/
def unlock_mcu_verdict (finalResult : List Char) : Option Bool :=
  if containsSub ackMarker finalResult then
    some (containsSub debugModeOnMarker finalResult)
  else none

/-- The (misspelled) marker `Rondom numbers are:` preceding the nonce. -/
def rondomMarker : List Char := ("Rondom numbers are:").toList

/-- Fuel-driven transcription of `text.split(pat)[-1]`: scan left to right,
skipping each non-overlapping occurrence of `pat`, and return the text after
the last occurrence (the whole text when there is none).  `fuel` larger than
the text length makes the scan total. -/
def afterLastFuel (pat : List Char) : Nat → List Char → List Char
  | 0, s => s
  | fuel + 1, s =>
    if pat.isPrefixOf s && !pat.isEmpty then afterLastFuel pat fuel (s.drop pat.length)
    else
      match s with
      | [] => []
      | _ :: t => if containsSub pat t then afterLastFuel pat fuel t else s

/-- `text.split(pat)[-1]` with adequate fuel. -/
def afterLastSplit (pat s : List Char) : List Char :=
  afterLastFuel pat (s.length + 1) s

/-- `re.search(r'([0-9A-Fa-f]{64})', s)`: the leftmost run of 64 hex
characters, if any. -/
def find64Run : List Char → Option (List Char)
  | [] => none
  | s@(_ :: t) =>
    if 64 ≤ s.length && (s.take 64).all isHexChar then some (s.take 64)
    else find64Run t

/-- `SerialConnect._extract_random_number` (SecureDebug_Serial_MCU.py lines
220-245): require the marker, take the text after its last occurrence, try
the direct 64-hex regex, then fall back to stripping non-hex characters and
taking the first 64; `None` when both fail.  The value is returned exactly
as matched — the code performs no case conversion. -/
def extract_random_number (text : List Char) : Option (List Char) :=
  if containsSub rondomMarker text then
    let randomPart := afterLastSplit rondomMarker text
    match find64Run randomPart with
    | some v => some v
    | none =>
      let cleaned := randomPart.filter isHexChar
      if 64 ≤ cleaned.length then some (cleaned.take 64) else none
  else none

/-- One `shell_cmd_SentCert <total> <index> <is_last> <length> <payload>`
line: the declared fields and the hex payload. -/
structure CertFragment where
  total : Nat
  index : Nat
  isLast : Nat
  declaredLen : Nat
  payload : List Char
deriving DecidableEq

/-- The 21 hard-coded certificate fragments of
`SerialConnect._get_certificate_fragments` (SecureDebug_Serial_MCU.py lines
194-218), field by field. -/
def certificate_fragments : List CertFragment :=
  [ ⟨1232, 1, 0, 60, ("308202643082020AA00302010202146C5837436B7B1C176EABC6B15BD711").toList⟩,
    ⟨1232, 2, 0, 60, ("C0281760B9300A06082A8648CE3D04030230818F310B3009060355040613").toList⟩,
    ⟨1232, 3, 0, 60, ("02434E3111300F06035504080C085368616E676861693111300F06035504").toList⟩,
    ⟨1232, 4, 0, 60, ("070C085368616E676861693110300E060355040A0C07434152495A4F4E31").toList⟩,
    ⟨1232, 5, 0, 60, ("0C300A060355040B0C034D43553113301106035504030C0A7169616E2E7A").toList⟩,
    ⟨1232, 6, 0, 60, ("686F6E673125302306092A864886F70D01090116167169616E2E7A686F6E").toList⟩,
    ⟨1232, 7, 0, 60, ("6740636172697A6F6E2E636F6D301E170D3235303432313037343935395A").toList⟩,
    ⟨1232, 8, 0, 60, ("170D3335303431393037343935395A30818F310B30090603550406130243").toList⟩,
    ⟨1232, 9, 0, 60, ("4E3111300F06035504080C085368616E676861693111300F06035504070C").toList⟩,
    ⟨1232, 10, 0, 60, ("085368616E676861693110300E060355040A0C07434152495A4F4E310C30").toList⟩,
    ⟨1232, 11, 0, 60, ("0A060355040B0C034D43553113301106035504030C0A7169616E2E7A686F").toList⟩,
    ⟨1232, 12, 0, 60, ("6E673125302306092A864886F70D01090116167169616E2E7A686F6E6740").toList⟩,
    ⟨1232, 13, 0, 60, ("636172697A6F6E2E636F6D3059301306072A8648CE3D020106082A8648CE").toList⟩,
    ⟨1232, 14, 0, 60, ("3D03010703420004863EF095C63298BBA03C712D6C414EACE3EA1838AA0B").toList⟩,
    ⟨1232, 15, 0, 60, ("EF41F0500532AA1A016B6124EDD228C634C5D849E80404F920156CD2732A").toList⟩,
    ⟨1232, 16, 0, 60, ("E916D292F1479E606BD3E3D8A3423040301D0603551D0E0416041405A250").toList⟩,
    ⟨1232, 17, 0, 60, ("53E47F7500163FB538EFB1F8B74F6DB5E2301F0603551D23041830168014").toList⟩,
    ⟨1232, 18, 0, 60, ("DADD4DFDB56C976FD1DA55D2C4BDF41BA123797F300A06082A8648CE3D04").toList⟩,
    ⟨1232, 19, 0, 60, ("030203480030450220785C165AF2ECC71B541FAA135BFB152CD01B104612").toList⟩,
    ⟨1232, 20, 0, 60, ("7678CC209C25A255802693022100C20FC93E12EB01D3E30FC87AF73B0E84").toList⟩,
    ⟨1232, 21, 1, 32, ("E8253CD2AD20F165B714CBA3DC2E29AE").toList⟩ ]

/-- Fuel-driven `[certificate[i:i+60] for i in range(0, len(certificate), 60)]`. -/
def chunks60Fuel : Nat → List Char → List (List Char)
  | 0, _ => []
  | fuel + 1, s => if s.isEmpty then [] else s.take 60 :: chunks60Fuel fuel (s.drop 60)

/-- The 60-character chunking of the certificate text (`fuel = length`
suffices: every step consumes at least one character). -/
def chunks60 (s : List Char) : List (List Char) := chunks60Fuel s.length s

/-- The fragment stream `UnlockMCU.__call__` builds from `certificate.crt`
(mcu_util.py lines 28-36): `shell_cmd_SentCert {len(certificate)} {idx+1}
{1 if idx == len(chunks)-1 else 0} {len(chunk)} {chunk}`. -/
def build_cert_chunks (cert : List Char) : List CertFragment :=
  let cs := chunks60 cert
  cs.enum.map (fun ic =>
    ⟨cert.length, ic.1 + 1, if ic.1 = cs.length - 1 then 1 else 0, ic.2.length, ic.2⟩)

/- ========== package download and verification (fastboot.py / uartboot.py) ========== -/

/-- Filesystem/network effects of `__download_package`. -/
inductive DlEvent where
  | wget (ok : Bool)
  | removeFile
deriving DecidableEq

/-- Environment of `__download_package`: the outcome of each `wget`
invocation in order, whether a failed attempt leaves a file to delete,
and the post-download size / MD5 comparisons against the artifact-repo
descriptor. -/
structure DlEnv where
  attempts : List Bool
  leftoverOnFail : Bool
  sizeOk : Bool
  md5Ok : Bool

/-- The `for retry_times in range(10)` wget loop (fastboot.py lines 245-266,
uartboot.py lines 539-560): stop on the first success; on each failure
remove the existing file if any; after ten failures report failure. -/
def dlLoop (leftoverOnFail : Bool) : Nat → List Bool → Bool × List DlEvent
  | 0, _ => (false, [])
  | n + 1, outs =>
    if outs.headD false then (true, [DlEvent.wget true])
    else
      let rest := dlLoop leftoverOnFail n outs.tail
      (rest.1,
        DlEvent.wget false :: ((if leftoverOnFail then [DlEvent.removeFile] else []) ++ rest.2))

/-- `__check_latest_package`: size compared first, MD5 only when the size
matched; `True` only when both match. -/
def check_latest_package (sizeOk md5Ok : Bool) : Bool := sizeOk && md5Ok

/-- `__download_package` (fastboot.py lines 209-274, uartboot.py lines
505-568) for `url == 'latest'` (`latest = true`) or an explicit URL:
download with up to 10 retries, then — only for `latest` — verify size and
MD5.  Result: (Python result, whether the downloaded file is still on disk,
events).  A failed verification returns `(False, '')` without touching the
file. -/
def download_package (latest : Bool) (env : DlEnv) : Bool × Bool × List DlEvent :=
  let dl := dlLoop env.leftoverOnFail 10 env.attempts
  if !dl.1 then (false, false, dl.2)
  else if latest && !check_latest_package env.sizeOk env.md5Ok then (false, true, dl.2)
  else (true, true, dl.2)

/-- Caller guard in `Fastboot.upgrade` / `Uartboot.boot`: when
`__download_package` reports failure the method returns `False` before any
fastboot/XMODEM command is issued. -/
def upgrade_flashes_after_download (latest : Bool) (env : DlEnv) : Bool :=
  (download_package latest env).1

/- ========== data-manifest selection (fastboot.py lines 427-460) ========== -/

/-- Gap matcher for a regex `.*` segment: some (possibly empty) run of
non-newline characters may be skipped before the continuation matches. -/
def anyGap (p : List Char → Bool) : List Char → Bool
  | [] => p []
  | s@(c :: t) => p s || (c ≠ '\n' && anyGap p t)

/-- Continuation for the trailing `.*json` of both manifest patterns. -/
def matchJsonTail (s : List Char) : Bool :=
  anyGap (fun r => ("json").toList.isPrefixOf r) s

/-- `re.match(f"data.*{host_name}.*json", file)`. -/
def plainDataMatch (host f : List Char) : Bool :=
  ("data").toList.isPrefixOf f &&
    anyGap (fun r => host.isPrefixOf r && matchJsonTail (r.drop host.length)) (f.drop 4)

/-- Tail of the LTS pattern after `<host>_`: `[Vv]{1}[0-9]{1}.[0-9]{1}.*json`
(note: single-digit major and minor, and an unescaped dot in between). -/
def ltsVersionTail (r : List Char) : Bool :=
  match r with
  | v :: d1 :: x :: d2 :: rest =>
    (v == 'V' || v == 'v') && isDigitCh d1 && x ≠ '\n' && isDigitCh d2 && matchJsonTail rest
  | _ => false

/-- `re.match(f"data.*{host_name}_[Vv]{1}[0-9]{1}.[0-9]{1}.*json", file)`. -/
def ltsDataMatch (host f : List Char) : Bool :=
  ("data").toList.isPrefixOf f &&
    anyGap (fun r => (host ++ ['_']).isPrefixOf r && ltsVersionTail (r.drop (host.length + 1)))
      (f.drop 4)

/-- Digit run to a number (`float` of a digit string in the source; exact
for every realistic version number). -/
def digitsToNat (ds : List Char) : Nat :=
  ds.foldl (fun acc c => 10 * acc + (c.toNat - 48)) 0

/-- A match of `_V(\d+)\.(\d+)` starting at the head of `s`: literal `_V`,
a maximal nonempty digit run, a literal dot, a nonempty digit run. -/
def keyAt (s : List Char) : Option (Nat × Nat) :=
  if ("_V").toList.isPrefixOf s then
    let r := s.drop 2
    let d1 := r.takeWhile isDigitCh
    if d1.isEmpty then none
    else
      match r.dropWhile isDigitCh with
      | '.' :: r2 =>
        let d2 := r2.takeWhile isDigitCh
        if d2.isEmpty then none else some (digitsToNat d1, digitsToNat d2)
      | _ => none
  else none

/-- `re.search(r"_V(\d+)\.(\d+)", x)`: leftmost match. -/
def findVKey : List Char → Option (Nat × Nat)
  | [] => none
  | s@(_ :: t) =>
    match keyAt s with
    | some k => some k
    | none => findVKey t

/-- Sort key of a candidate (`tuple(map(float, re.search(...).groups()))`).
Only applied to candidates whose `findVKey` is `some`. -/
def keyOf (f : List Char) : Nat × Nat := (findVKey f).getD (0, 0)

/-- Python tuple `<=` on the two-component version keys. -/
def keyLe (a b : List Char) : Bool :=
  (keyOf a).1 < (keyOf b).1 || ((keyOf a).1 == (keyOf b).1 && (keyOf a).2 ≤ (keyOf b).2)

/-- Stable insertion used to model Python's stable `sorted`. -/
def insertBy (le : List Char → List Char → Bool) (x : List Char) :
    List (List Char) → List (List Char)
  | [] => [x]
  | y :: t => if le x y then x :: y :: t else y :: insertBy le x t

/-- Stable insertion sort (same ordering and stability as `sorted`). -/
def sortBy (le : List Char → List Char → Bool) : List (List Char) → List (List Char)
  | [] => []
  | x :: t => insertBy le x (sortBy le t)

/-- Result of the manifest-selection block: no `data.*<host>.*json` file at
all (the method logs an error and returns an empty command list), a chosen
file, or the `AttributeError` raised when the sort key's `re.search` returns
`None` for some LTS candidate. -/
inductive SelectResult where
  | noDataJson
  | picked (f : List Char)
  | keyError
deriving DecidableEq

/-- The manifest-selection logic of
`__host_run_fastboot_format_flash_command` (fastboot.py lines 427-460):
filter `data.*<host>.*json`, prefer `data.*<host>_[Vv][0-9].[0-9].*json`
candidates sorted by the `_V(\d+)\.(\d+)` key and take the last
(`sorted(...)[-1]`), else the first plain match. -/
def selectDataJson (host : List Char) (files : List (List Char)) : SelectResult :=
  let targets := files.filter (plainDataMatch host)
  match targets with
  | [] => SelectResult.noDataJson
  | t0 :: _ =>
    let lts := targets.filter (ltsDataMatch host)
    match lts with
    | [] => SelectResult.picked t0
    | _ :: _ =>
      if lts.all (fun f => (findVKey f).isSome) then
        match (sortBy keyLe lts).getLast? with
        | some m => SelectResult.picked m
        | none => SelectResult.keyError
      else SelectResult.keyError

/-- Tail of the claim's LTS pattern after `<host>_V`: `<major>.<minor>.*json`
with multi-digit version numbers, following the spec's words
`data.*<hostname>_V<major>.<minor>.*json` (for comparison with
`ltsDataMatch`, which the source restricts to single digits). -/
def spec_lts_version_tail (r : List Char) : Bool :=
  let d1 := r.takeWhile isDigitCh
  !d1.isEmpty &&
    match r.dropWhile isDigitCh with
    | '.' :: r2 =>
      let d2 := r2.takeWhile isDigitCh
      !d2.isEmpty && matchJsonTail (r2.drop d2.length)
    | _ => false

/-- The claim's LTS pattern `data.*<hostname>_V<major>.<minor>.*json`,
modelled from the spec's words. -/
def spec_lts_match (host f : List Char) : Bool :=
  ("data").toList.isPrefixOf f &&
    anyGap
      (fun r => (host ++ ('_' :: ['V'])).isPrefixOf r &&
        spec_lts_version_tail (r.drop (host.length + 2)))
      (f.drop 4)

/- ========== sparse flag of the flash command (fastboot.py lines 511-527) ========== -/

/-- The sparse-flag field of a generated flash command:
`"-S 32M " if os.path.getsize(...) / (1024 * 1024) > 32 else ""` — Python
true division, exact here, modelled over ℚ. -/
def sparse_flag_field (size : Nat) : List Char :=
  if (32 : ℚ) < (size : ℚ) / (1024 * 1024) then ("-S 32M ").toList else []

/-- A generated `fastboot flash` command:
`sudo fastboot <opts>flash <part-or-0> [-S 32M ]<image path>`. -/
def flash_command (opts part imgPath : List Char) (size : Nat) : List Char :=
  ("sudo fastboot ").toList ++ opts ++ ("flash ").toList ++ part ++ [' '] ++
    sparse_flag_field size ++ imgPath

/- ========== C-prompt wait (uartboot.py lines 670-729) ========== -/

/-- Per-read match used by both wait loops:
`chunk == b'C' or chunk_str.strip() == 'C' or 'CCC' in chunk_str`. -/
def chunkHasC (chunk : List Char) : Bool :=
  chunk == ['C'] || pyStrip chunk == ['C'] || containsSub (("CCC").toList) chunk

/-- The SoC-port wait loop (lines 673-693) over the sequence of chunks read
before the 10 s deadline: on a matching chunk the counter becomes ≥ 1 and
the loop reports success immediately; a non-matching chunk resets the
counter; an exhausted deadline reports failure. -/
def soc_wait_loop (count : Nat) : List (List Char) → Bool
  | [] => false
  | chunk :: rest =>
    if chunkHasC chunk then
      if 1 ≤ count + 1 then true else soc_wait_loop (count + 1) rest
    else soc_wait_loop 0 rest

/-- The MCU/HSM-port wait loop (lines 696-723) over the chunks read before
the 15 s deadline: success requires the consecutive-match counter to reach
2; a non-matching chunk resets it. -/
def mcu_wait_loop (count : Nat) : List (List Char) → Bool
  | [] => false
  | chunk :: rest =>
    if chunkHasC chunk then
      if 2 ≤ count + 1 then true else mcu_wait_loop (count + 1) rest
    else mcu_wait_loop 0 rest

/-- Two consecutive matching chunks somewhere in the read sequence. -/
def twoConsecutive (p : List Char → Bool) : List (List Char) → Bool
  | a :: b :: t => (p a && p b) || twoConsecutive p (b :: t)
  | _ => false

/-- SoC-side deadline in seconds (`time.time() + 10`). -/
def socWaitDeadline : Nat := 10

/-- MCU/HSM-side deadline in seconds (`time.time() + 15`). -/
def mcuWaitDeadline : Nat := 15

/-- Whether the first chunk of a read sequence matches the C test. -/
def headHasC : List (List Char) → Bool
  | [] => false
  | c :: _ => chunkHasC c

/- ============================ theorems ============================ -/

/-- C10: in `BaseRelay.execute` and `Relay_default.execute`, `port = port or
self.relay_port` substitutes the configured power port for both `None` and
`0`, and the range check `port > 16` rejects exactly the resolved ports
strictly greater than 16 — so an argument of `0` or `None` falls back to the
(in-range) configured port and negative arguments are never refused by the
check. -/
theorem relay_port_resolution :
    (∀ rp : Int, resolvePort none rp = rp ∧ resolvePort (some 0) rp = rp)
    ∧ (∀ rp : Int, rp ≤ 16 →
        portCheckRejects none rp = false ∧ portCheckRejects (some 0) rp = false)
    ∧ (∀ rp p : Int, p < 0 → portCheckRejects (some p) rp = false)
    ∧ (∀ rp p : Int, 16 < p → portCheckRejects (some p) rp = true) := by
  refine ⟨?_, ?_, ?_, ?_⟩
  · intro rp
    exact ⟨rfl, rfl⟩
  · intro rp h
    constructor <;> simp [portCheckRejects, resolvePort] <;> omega
  · intro rp p h
    have hp : (p == 0) = false := by simp; omega
    simp [portCheckRejects, resolvePort, hp]
    omega
  · intro rp p h
    have hp : (p == 0) = false := by simp; omega
    simp [portCheckRejects, resolvePort, hp]
    omega

/-- C10 witness: concrete instances — configured port 3 substituted for
`None`/`0` and not rejected; `-5` not rejected; `17` rejected. -/
theorem relay_port_resolution_witness :
    (resolvePort none 3 = 3 ∧ resolvePort (some 0) 3 = 3)
    ∧ (portCheckRejects none 3 = false ∧ portCheckRejects (some 0) 3 = false)
    ∧ portCheckRejects (some (-5)) 3 = false
    ∧ portCheckRejects (some 17) 3 = true :=
  ⟨relay_port_resolution.1 3,
   relay_port_resolution.2.1 3 (by decide),
   relay_port_resolution.2.2.1 3 (-5) (by decide),
   relay_port_resolution.2.2.2 3 17 (by decide)⟩

/-- C8: the generated flash command carries the `-S 32M` sparse flag exactly
when the image size strictly exceeds 32 MiB = 33,554,432 bytes; at exactly
32 MiB the flag is absent, at 32 MiB + 1 it is present. -/
theorem sparse_flag_boundary :
    (∀ size : Nat, sparse_flag_field size = ("-S 32M ").toList ↔ 33554432 < size)
    ∧ (∀ size : Nat, sparse_flag_field size = [] ↔ size ≤ 33554432)
    ∧ containsSub (("-S 32M").toList)
        (flash_command (("-s udp:192.168.1.10:5554 ").toList) (("boot_a").toList)
          (("/tmp/img_packages/boot.img").toList) 33554432) = false
    ∧ containsSub (("-S 32M").toList)
        (flash_command (("-s udp:192.168.1.10:5554 ").toList) (("boot_a").toList)
          (("/tmp/img_packages/boot.img").toList) 33554433) = true := by
  have key : ∀ size : Nat, ((32 : ℚ) < (size : ℚ) / (1024 * 1024)) ↔ 33554432 < size := by
    intro size
    rw [lt_div_iff₀ (by norm_num : (0 : ℚ) < 1024 * 1024)]
    norm_num
  have flag : ∀ size : Nat, sparse_flag_field size = ("-S 32M ").toList ↔ 33554432 < size := by
    intro size
    by_cases h : (32 : ℚ) < (size : ℚ) / (1024 * 1024)
    · simp [sparse_flag_field, h, (key size).mp h]
    · have : ¬ 33554432 < size := fun hlt => h ((key size).mpr hlt)
      simp [sparse_flag_field, h, this]
  have noflag : ∀ size : Nat, sparse_flag_field size = [] ↔ size ≤ 33554432 := by
    intro size
    by_cases h : (32 : ℚ) < (size : ℚ) / (1024 * 1024)
    · have := (key size).mp h
      simp [sparse_flag_field, h]
      omega
    · have : ¬ 33554432 < size := fun hlt => h ((key size).mpr hlt)
      simp [sparse_flag_field, h]
      omega
  refine ⟨flag, noflag, ?_, ?_⟩
  · rw [flash_command, (noflag 33554432).mpr (by omega)]
    decide
  · rw [flash_command, (flag 33554433).mpr (by omega)]
    decide

/-- C2 (counterexample): a terminal-fragment response consisting exactly of
`Debug mode ON!` contains one of the claim's two success markers, yet
`Shell_SentSignatureCmd` reports failure — the responsive-mode branch tests
only `"Signature Verify Ok" in result`, so the claim's "success iff either
marker" is false on this input. -/
theorem secure_debug_verdict_counterexample :
    containsSub debugModeOnMarker (("Debug mode ON!").toList) = true
    ∧ shell_sent_signature_verdict (some (("Debug mode ON!").toList)) = false := by
  decide

/-- C2 (amended): in responsive mode the two unlock paths each test a single
marker — `Shell_SentSignatureCmd` succeeds iff the terminal-fragment
response contains `Signature Verify Ok` (a `None` response fails), and
`UnlockMCU` exits successfully iff the final chunk response contains the
per-chunk acknowledgement and `Debug mode ON!`. -/
theorem secure_debug_verdict_amended :
    (∀ r : List Char, shell_sent_signature_verdict (some r) = containsSub sigVerifyOkMarker r)
    ∧ shell_sent_signature_verdict none = false
    ∧ (∀ r : List Char, unlock_mcu_verdict r = some true ↔
        containsSub ackMarker r = true ∧ containsSub debugModeOnMarker r = true) := by
  refine ⟨?_, rfl, ?_⟩
  · intro r
    cases r with
    | nil => decide
    | cons c t => simp [shell_sent_signature_verdict]
  · intro r
    by_cases h : containsSub ackMarker r = true
    · simp [unlock_mcu_verdict, h]
    · simp [unlock_mcu_verdict, h]

/-- C9 (counterexample): on the SoC port a single read chunk equal to `C`
makes the wait succeed at once (the counter test is `>= 1`), contradicting
the claim that an isolated `C` does not terminate the wait; and on the
MCU/HSM ports a single read containing `CCC` does not terminate the wait
(the counter test is `>= 2`), contradicting the claim that observing `CCC`
suffices. -/
theorem c_prompt_wait_counterexample :
    soc_wait_loop 0 [['C']] = true
    ∧ mcu_wait_loop 0 [(("CCC").toList)] = false
    ∧ containsSub (("CCC").toList) (("CCC").toList) = true := by
  decide

/-- Helper: the SoC wait reports success exactly when some read chunk
matches the C test (the counter comparison `>= 1` holds on every match). -/
theorem soc_wait_loop_any (chunks : List (List Char)) :
    ∀ count, soc_wait_loop count chunks = chunks.any chunkHasC := by
  induction chunks with
  | nil => intro count; rfl
  | cons c t ih =>
    intro count
    by_cases h : chunkHasC c = true
    · have h1 : 1 ≤ count + 1 := by omega
      simp [soc_wait_loop, h, h1]
    · simp [soc_wait_loop, h, ih 0]

/-- Helper: the MCU/HSM wait from counter 0 succeeds exactly on two
consecutive matching chunks; from counter 1 it additionally succeeds when
the first chunk matches. -/
theorem mcu_wait_loop_spec (chunks : List (List Char)) :
    mcu_wait_loop 0 chunks = twoConsecutive chunkHasC chunks
    ∧ mcu_wait_loop 1 chunks = (headHasC chunks || twoConsecutive chunkHasC chunks) := by
  induction chunks with
  | nil => exact ⟨rfl, rfl⟩
  | cons c t ih =>
    have hstep0 : mcu_wait_loop 0 (c :: t) =
        if chunkHasC c then mcu_wait_loop 1 t else mcu_wait_loop 0 t := by
      by_cases h : chunkHasC c = true <;> simp [mcu_wait_loop, h]
    have hstep1 : mcu_wait_loop 1 (c :: t) =
        if chunkHasC c then true else mcu_wait_loop 0 t := by
      by_cases h : chunkHasC c = true <;> simp [mcu_wait_loop, h]
    constructor
    · rw [hstep0]
      by_cases h : chunkHasC c = true
      · rw [if_pos h, ih.2]
        cases t with
        | nil => simp [headHasC, twoConsecutive]
        | cons b t' => simp [headHasC, twoConsecutive, h]
      · have h' : chunkHasC c = false := by simpa using h
        rw [if_neg h, ih.1]
        cases t with
        | nil => simp [twoConsecutive]
        | cons b t' => simp [twoConsecutive, h']
    · rw [hstep1]
      by_cases h : chunkHasC c = true
      · simp [headHasC, h]
      · have h' : chunkHasC c = false := by simpa using h
        rw [if_neg h, ih.1]
        cases t with
        | nil => simp [headHasC, twoConsecutive, h']
        | cons b t' => simp [headHasC, twoConsecutive, h']

/-- C9 (amended): within the deadline (10 s SoC, 15 s MCU/HSM, the read
sequence being the chunks obtained before expiry), the SoC wait succeeds as
soon as any single chunk matches `chunk == b'C'`, strips to `'C'`, or
contains `CCC`; the MCU/HSM wait succeeds exactly when two consecutive
chunks match that test — a single chunk containing `CCC` is not enough; an
exhausted read sequence (deadline expiry) yields failure, which aborts the
flow. -/
theorem c_prompt_wait_amended :
    (∀ chunks : List (List Char), soc_wait_loop 0 chunks = chunks.any chunkHasC)
    ∧ (∀ chunks : List (List Char), mcu_wait_loop 0 chunks = twoConsecutive chunkHasC chunks)
    ∧ mcu_wait_loop 0 [(("CCC").toList)] = false
    ∧ soc_wait_loop 0 [] = false ∧ mcu_wait_loop 0 [] = false
    ∧ socWaitDeadline = 10 ∧ mcuWaitDeadline = 15 :=
  ⟨fun chunks => soc_wait_loop_any chunks 0,
   fun chunks => (mcu_wait_loop_spec chunks).1,
   by decide, rfl, rfl, rfl, rfl⟩

/-- C6 (counterexample): with `url = 'latest'`, a download that succeeds on
the first wget attempt but fails the size check returns failure, yet the
downloaded file stays on disk and no removal is performed — the claim's
"the downloaded file is removed from disk" is false (removals happen only
inside the retry loop, for failed attempts). -/
theorem download_verify_counterexample :
    (download_package true ⟨[true], false, false, true⟩).1 = false
    ∧ (download_package true ⟨[true], false, false, true⟩).2.1 = true
    ∧ (download_package true ⟨[true], false, false, true⟩).2.2.count DlEvent.removeFile = 0 := by
  decide

/-- C6 (amended): when the download succeeds and `url = 'latest'` with a
size or MD5 mismatch, `__download_package` returns `(False, '')` — so the
caller aborts before flashing — but emits no removal after the download:
the file is left on disk and the event trace is exactly the download
trace. -/
theorem download_verify_amended :
    ∀ env : DlEnv, (dlLoop env.leftoverOnFail 10 env.attempts).1 = true →
      (env.sizeOk = false ∨ env.md5Ok = false) →
      (download_package true env).1 = false
      ∧ upgrade_flashes_after_download true env = false
      ∧ (download_package true env).2.1 = true
      ∧ (download_package true env).2.2 = (dlLoop env.leftoverOnFail 10 env.attempts).2 := by
  intro env hdl hbad
  have hc : check_latest_package env.sizeOk env.md5Ok = false := by
    cases hbad with
    | inl h => simp [check_latest_package, h]
    | inr h => simp [check_latest_package, h]
  refine ⟨?_, ?_, ?_, ?_⟩ <;>
    simp [download_package, upgrade_flashes_after_download, hdl, hc]

/-- C6 witness: concrete environment — one successful wget attempt, size
check fails; the operation fails, no flash follows, the file remains. -/
theorem download_verify_amended_witness :
    (dlLoop false 10 [true]).1 = true
    ∧ ((download_package true ⟨[true], false, false, true⟩).1 = false
       ∧ upgrade_flashes_after_download true ⟨[true], false, false, true⟩ = false
       ∧ (download_package true ⟨[true], false, false, true⟩).2.1 = true
       ∧ (download_package true ⟨[true], false, false, true⟩).2.2 =
           (dlLoop false 10 [true]).2) :=
  ⟨by decide, download_verify_amended ⟨[true], false, false, true⟩ (by decide) (Or.inl rfl)⟩

/-- C4 (counterexample): the corx backend issues the raw Modbus ON frame
unconditionally — `execute('on', 5)` emits a toggle command no matter what
state the port is in, so a second consecutive `on(5)` again sends the frame
to the hardware, contradicting the claimed idempotence for every backend. -/
theorem relay_idempotence_counterexample :
    corx_execute ⟨true⟩ RAction.on 5 = (true, [REvent.modbusSend 4 true])
    ∧ isToggle (REvent.modbusSend 4 true) = true := by
  decide

/-- C4 (amended): the HTTP/default backend (status shortcut in `execute`)
and the zqwl backend (coil check in `_port_on`/`_port_off`) are idempotent —
when the port already reports the requested state they return success with
only status reads, no toggle command; the corx backend always issues the
toggle frame. -/
theorem relay_idempotence_amended :
    (∀ env : DefaultEnv, ∀ p : Nat, p ≤ 16 → confirmGate env p = true →
       env.lockOk = true → portBit env.ports p = 0 →
       default_execute env RAction.on p =
         (true, [REvent.lockAcq true, REvent.httpGet 0, REvent.lockRel]))
    ∧ (∀ env : DefaultEnv, ∀ p : Nat, p ≤ 16 → confirmGate env p = true →
       env.lockOk = true → portBit env.ports p = 1 →
       default_execute env RAction.off p =
         (true, [REvent.lockAcq true, REvent.httpGet 0, REvent.lockRel]))
    ∧ (∀ env : ZqwlEnv, ∀ p : Nat, p ≤ 16 → env.coils (p - 1) = false →
       zqwl_execute env RAction.on p = (true, [REvent.coilRead (p - 1)]))
    ∧ (∀ env : ZqwlEnv, ∀ p : Nat, p ≤ 16 → env.coils (p - 1) = true →
       zqwl_execute env RAction.off p = (true, [REvent.coilRead (p - 1)]))
    ∧ (∀ env : CorxEnv, ∀ p : Nat, ∀ a : RAction,
       (corx_execute env a p).2.all isToggle = true) := by
  refine ⟨?_, ?_, ?_, ?_, ?_⟩
  · intro env p hp hconf hlock hbit
    have h16 : ¬ 16 < p := by omega
    simp [default_execute, h16, hconf, hlock, hbit]
  · intro env p hp hconf hlock hbit
    have h16 : ¬ 16 < p := by omega
    simp [default_execute, h16, hconf, hlock, hbit]
  · intro env p hp hcoil
    have h16 : ¬ 16 < p := by omega
    simp [zqwl_execute, zqwl_port_on, h16, hcoil]
  · intro env p hp hcoil
    have h16 : ¬ 16 < p := by omega
    simp [zqwl_execute, zqwl_port_off, h16, hcoil]
  · intro env p a
    by_cases h16 : 16 < p
    · simp [corx_execute, h16]
    · cases a
      · simp [corx_execute, corx_send_modbus, h16, isToggle]
      · simp [corx_execute, corx_send_modbus, h16, isToggle]
      · simp only [corx_execute, corx_port_reboot, corx_send_modbus, h16, if_false]
        split <;> simp [isToggle]

/-- C4 witness: concrete idempotent calls for the default and zqwl backends
(port already in the requested state: success with only a status read) and
a corx call whose whole trace is toggle commands. -/
theorem relay_idempotence_amended_witness :
    default_execute ⟨3, true, 0, []⟩ RAction.on 3 =
      (true, [REvent.lockAcq true, REvent.httpGet 0, REvent.lockRel])
    ∧ zqwl_execute ⟨fun _ => false, true⟩ RAction.on 3 = (true, [REvent.coilRead 2])
    ∧ (corx_execute ⟨true⟩ RAction.reboot 3).2.all isToggle = true :=
  ⟨relay_idempotence_amended.1 ⟨3, true, 0, []⟩ 3 (by decide) (by decide) rfl (by decide),
   relay_idempotence_amended.2.2.1 ⟨fun _ => false, true⟩ 3 (by decide) rfl,
   relay_idempotence_amended.2.2.2.2 ⟨true⟩ 3 RAction.reboot⟩

/-- Helper: a trace free of lock events, followed by the release, is wholly
under the lock once it has been acquired. -/
theorem wireUnderLock_of_no_lock (l : List REvent)
    (h : l.all (fun e => !isLockEvent e) = true) :
    wireUnderLock true (l ++ [REvent.lockRel]) = true := by
  induction l with
  | nil => rfl
  | cons e t ih =>
    simp only [List.all_cons, Bool.and_eq_true] at h
    cases e with
    | lockAcq ok => simp [isLockEvent] at h
    | lockRel => simp [isLockEvent] at h
    | httpGet v => simpa [wireUnderLock] using ih h.2
    | coilRead a => simpa [wireUnderLock] using ih h.2
    | coilWrite a v => simpa [wireUnderLock] using ih h.2
    | modbusSend a v => simpa [wireUnderLock] using ih h.2

/-- Helper: the trace of `_port_on`/`_port_off`/`_port_reboot` of the
default backend consists of HTTP requests only — no lock events. -/
theorem default_action_no_lock (env : DefaultEnv) (a : RAction) (p : Nat) :
    (default_port_action env a p).2.all (fun e => !isLockEvent e) = true := by
  cases a
  · simp [default_port_action, default_port_on, isLockEvent]
  · simp [default_port_action, default_port_off, isLockEvent]
  · simp only [default_port_action, default_port_reboot]
    split <;> simp [default_port_on, default_port_off, isLockEvent]

/-- C1 (counterexample): the corx backend inherits the lock-free
`BaseRelay.execute` — a `reboot(3)` sends two raw Modbus frames to the
hardware without any acquisition of the `carizon_relay` lock, so the claim
"no wire command is issued unless the lock has been acquired" fails for
this backend (and likewise for zqwl). -/
theorem relay_lock_counterexample :
    (corx_execute ⟨true⟩ RAction.reboot 3).2.any isWire = true
    ∧ (corx_execute ⟨true⟩ RAction.reboot 3).2.any isLockEvent = false := by
  decide

/-- C1 (amended): only the HTTP/default backend guards the hardware with
the `carizon_relay` lock — in `Relay_default.execute` every wire event
happens with the lock held and a failed acquisition returns `False` with no
wire traffic; the zqwl and corx backends run `BaseRelay.execute`, which
performs no lock operation at all. -/
theorem relay_lock_amended :
    (∀ (env : DefaultEnv) (a : RAction) (p : Nat), env.lockOk = false →
       (default_execute env a p).1 = false
       ∧ (default_execute env a p).2.any isWire = false)
    ∧ (∀ (env : DefaultEnv) (a : RAction) (p : Nat),
       wireUnderLock false (default_execute env a p).2 = true)
    ∧ (∀ (env : ZqwlEnv) (a : RAction) (p : Nat),
       (zqwl_execute env a p).2.any isLockEvent = false)
    ∧ (∀ (env : CorxEnv) (a : RAction) (p : Nat),
       (corx_execute env a p).2.any isLockEvent = false) := by
  refine ⟨?_, ?_, ?_, ?_⟩
  · intro env a p hl
    by_cases h16 : 16 < p
    · simp [default_execute, h16]
    · by_cases hconf : confirmGate env p = true
      · simp [default_execute, h16, hconf, hl, isWire]
      · have hc : confirmGate env p = false := by simpa using hconf
        simp [default_execute, h16, hc]
  · intro env a p
    by_cases h16 : 16 < p
    · simp [default_execute, h16, wireUnderLock]
    · by_cases hconf : confirmGate env p = true
      · by_cases hl : env.lockOk = true
        · by_cases hs1 : (portBit env.ports p == 0 && a == RAction.on) = true
          · simp [default_execute, h16, hconf, hl, hs1, wireUnderLock, isWire]
          · by_cases hs2 : (portBit env.ports p == 1 && a == RAction.off) = true
            · simp [default_execute, h16, hconf, hl, hs1, hs2, wireUnderLock, isWire]
            · have step := wireUnderLock_of_no_lock
                (default_port_action env a p).2 (default_action_no_lock env a p)
              simp [default_execute, h16, hconf, hl, hs1, hs2, wireUnderLock, isWire, step]
        · have hlf : env.lockOk = false := by simpa using hl
          simp [default_execute, h16, hconf, hlf, wireUnderLock]
      · have hc : confirmGate env p = false := by simpa using hconf
        simp [default_execute, h16, hc, wireUnderLock]
  · intro env a p
    by_cases h16 : 16 < p
    · simp [zqwl_execute, h16]
    · cases a
      · simp only [zqwl_execute, zqwl_port_on, h16, if_false]
        split <;> simp [isLockEvent]
      · simp only [zqwl_execute, zqwl_port_off, h16, if_false]
        split <;> simp [isLockEvent]
      · by_cases hc : env.coils (p - 1) = false
        · cases hw : env.writeOk <;>
            simp [zqwl_execute, zqwl_port_reboot, zqwl_port_on, zqwl_port_off,
              h16, hc, hw, isLockEvent]
        · have hc' : env.coils (p - 1) = true := by simpa using hc
          cases hw : env.writeOk <;>
            simp [zqwl_execute, zqwl_port_reboot, zqwl_port_on, zqwl_port_off,
              h16, hc', hw, isLockEvent]
  · intro env a p
    by_cases h16 : 16 < p
    · simp [corx_execute, h16]
    · cases a
      · simp [corx_execute, corx_send_modbus, h16, isLockEvent]
      · simp [corx_execute, corx_send_modbus, h16, isLockEvent]
      · simp only [corx_execute, corx_port_reboot, corx_send_modbus, h16, if_false]
        split <;> simp [isLockEvent]

/-- C1 witness: with the lock unavailable the default backend returns
failure and issues no wire command. -/
theorem relay_lock_amended_witness :
    (default_execute ⟨1, false, 0, []⟩ RAction.reboot 1).1 = false
    ∧ (default_execute ⟨1, false, 0, []⟩ RAction.reboot 1).2.any isWire = false :=
  relay_lock_amended.1 ⟨1, false, 0, []⟩ RAction.reboot 1 rfl

/-- Helper: with fuel at least the length, the 60-character chunks
concatenate back to the original text. -/
theorem chunks60Fuel_flatten : ∀ (fuel : Nat) (s : List Char), s.length ≤ fuel →
    (chunks60Fuel fuel s).flatten = s := by
  intro fuel
  induction fuel with
  | zero =>
    intro s h
    have hs : s = [] := List.eq_nil_of_length_eq_zero (by omega)
    subst hs
    rfl
  | succ f ih =>
    intro s h
    by_cases hs : s.isEmpty = true
    · have hnil : s = [] := by simpa using hs
      subst hnil
      rfl
    · have hs' : s.isEmpty = false := by simpa using hs
      have hlen : 1 ≤ s.length := by
        cases s with
        | nil => simp at hs'
        | cons c t => simp
      simp only [chunks60Fuel, hs', Bool.false_eq_true, if_false, List.flatten_cons]
      rw [ih (s.drop 60) (by simp; omega)]
      exact List.take_append_drop 60 s

/-- Helper: the chunking of the certificate text concatenates back to it. -/
theorem chunks60_flatten (s : List Char) : (chunks60 s).flatten = s :=
  chunks60Fuel_flatten s.length s le_rfl

/-- Helper: a nonempty certificate yields at least one chunk. -/
theorem chunks60_ne_nil (s : List Char) (h : s ≠ []) : chunks60 s ≠ [] := by
  cases s with
  | nil => exact absurd rfl h
  | cons c t => simp [chunks60, chunks60Fuel]

/-- Helper: enumeration indices shifted by one are exactly `1..N`. -/
theorem enum_index_map (l : List (List Char)) :
    l.enum.map (fun ic => ic.1 + 1) = List.range' 1 l.length := by
  have h1 : l.enum.map (fun ic => ic.1 + 1) = (l.enum.map Prod.fst).map (· + 1) := by
    rw [List.map_map]
    rfl
  rw [h1, List.enum_map_fst]
  simp [List.range'_eq_map_range]
  omega

/-- C5: every certificate fragment stream satisfies the declared invariants.
The 21 hard-coded fragments of `_get_certificate_fragments` declare total
1232 = 20·60 + 32 with each declared length equal to the payload length,
indices 1..21, and the last flag set exactly once, on index 21; and for
every nonempty certificate text, the chunk stream `UnlockMCU` builds has
declared lengths summing to the declared total (= the certificate length),
each declared length equal to the actual chunk length, indices 1..N, and
the last flag set exactly once, on the final index N. -/
theorem cert_fragment_stream_invariants :
    ((certificate_fragments.map CertFragment.declaredLen).sum = 1232
     ∧ certificate_fragments.all
         (fun fr => fr.total == 1232 && fr.declaredLen == fr.payload.length) = true
     ∧ certificate_fragments.map CertFragment.index = List.range' 1 21
     ∧ certificate_fragments.countP (fun fr => fr.isLast == 1) = 1
     ∧ ∀ fr ∈ certificate_fragments, fr.isLast = 1 ↔ fr.index = 21)
    ∧ (∀ cert : List Char, cert ≠ [] →
       ((build_cert_chunks cert).map CertFragment.declaredLen).sum = cert.length
       ∧ (build_cert_chunks cert).all
           (fun fr => fr.total == cert.length && fr.declaredLen == fr.payload.length) = true
       ∧ (build_cert_chunks cert).map CertFragment.index =
           List.range' 1 (chunks60 cert).length
       ∧ (build_cert_chunks cert).countP (fun fr => fr.isLast == 1) = 1
       ∧ ∀ fr ∈ build_cert_chunks cert, fr.isLast = 1 ↔ fr.index = (chunks60 cert).length) := by
  constructor
  · refine ⟨by decide, by decide, by decide, by decide, by decide⟩
  · intro cert hne
    have hcs : chunks60 cert ≠ [] := chunks60_ne_nil cert hne
    have hn : 1 ≤ (chunks60 cert).length := by
      cases h : chunks60 cert with
      | nil => exact absurd h hcs
      | cons a l => simp
    refine ⟨?_, ?_, ?_, ?_, ?_⟩
    · rw [build_cert_chunks, List.map_map]
      have h2 : ((chunks60 cert).enum.map
            (fun ic => (⟨cert.length, ic.1 + 1,
              if ic.1 = (chunks60 cert).length - 1 then 1 else 0,
              ic.2.length, ic.2⟩ : CertFragment).declaredLen)) =
          ((chunks60 cert).enum.map Prod.snd).map List.length := by
        rw [List.map_map]
        rfl
      rw [show (CertFragment.declaredLen ∘ fun ic =>
            (⟨cert.length, ic.1 + 1,
              if ic.1 = (chunks60 cert).length - 1 then 1 else 0,
              ic.2.length, ic.2⟩ : CertFragment)) =
          (fun ic : Nat × List Char => ic.2.length) from rfl]
      have h3 : ((chunks60 cert).enum.map (fun ic : Nat × List Char => ic.2.length)) =
          ((chunks60 cert).enum.map Prod.snd).map List.length := by
        rw [List.map_map]
        rfl
      rw [h3, List.enum_map_snd]
      rw [← List.length_flatten, chunks60_flatten]
    · rw [build_cert_chunks]
      apply List.all_eq_true.mpr
      intro fr hfr
      rw [List.mem_map] at hfr
      obtain ⟨ic, _, rfl⟩ := hfr
      simp
    · rw [build_cert_chunks, List.map_map]
      rw [show (CertFragment.index ∘ fun ic =>
            (⟨cert.length, ic.1 + 1,
              if ic.1 = (chunks60 cert).length - 1 then 1 else 0,
              ic.2.length, ic.2⟩ : CertFragment)) =
          (fun ic : Nat × List Char => ic.1 + 1) from rfl]
      exact enum_index_map (chunks60 cert)
    · rw [build_cert_chunks, List.countP_map]
      have hcong : (chunks60 cert).enum.countP
            ((fun fr : CertFragment => fr.isLast == 1) ∘ fun ic =>
              (⟨cert.length, ic.1 + 1,
                if ic.1 = (chunks60 cert).length - 1 then 1 else 0,
                ic.2.length, ic.2⟩ : CertFragment)) =
          (chunks60 cert).enum.countP
            (fun ic : Nat × List Char => ic.1 == (chunks60 cert).length - 1) := by
        apply List.countP_congr
        intro ic _
        by_cases h : ic.1 = (chunks60 cert).length - 1 <;> simp [h]
      rw [hcong]
      have h4 : (chunks60 cert).enum.countP
            (fun ic : Nat × List Char => ic.1 == (chunks60 cert).length - 1) =
          ((chunks60 cert).enum.map Prod.fst).countP
            (fun i => i == (chunks60 cert).length - 1) := by
        rw [List.countP_map]
        rfl
      rw [h4, List.enum_map_fst]
      have h5 : ((List.range (chunks60 cert).length).countP
            (fun i => i == (chunks60 cert).length - 1)) =
          (List.range (chunks60 cert).length).count ((chunks60 cert).length - 1) := rfl
      rw [h5]
      refine List.count_eq_one_of_mem (List.nodup_range _) ?_
      simp
      omega
    · intro fr hfr
      rw [build_cert_chunks, List.mem_map] at hfr
      obtain ⟨ic, hic, rfl⟩ := hfr
      obtain ⟨i, c⟩ := ic
      have hi : i < (chunks60 cert).length := List.fst_lt_of_mem_enum hic
      by_cases h : i = (chunks60 cert).length - 1
      · simp only [h, if_pos rfl]
        constructor
        · intro _
          omega
        · intro _
          rfl
      · simp only [if_neg h]
        constructor
        · intro h01
          exact absurd h01 (by omega)
        · intro hidx
          exact absurd hidx (by omega)

/-- C5 witness: a 61-character certificate splits into two chunks with the
invariants holding concretely. -/
theorem cert_fragment_stream_invariants_witness :
    ((build_cert_chunks (List.replicate 61 'A')).map CertFragment.declaredLen).sum = 61
    ∧ (build_cert_chunks (List.replicate 61 'A')).map CertFragment.index = List.range' 1 2
    ∧ (build_cert_chunks (List.replicate 61 'A')).countP (fun fr => fr.isLast == 1) = 1 := by
  have h := cert_fragment_stream_invariants.2 (List.replicate 61 'A') (by decide)
  exact ⟨by simpa using h.1, by decide, by decide⟩

/-- Helper: membership in a stable insertion. -/
theorem mem_insertBy (le : List Char → List Char → Bool) (x a : List Char) :
    ∀ l, a ∈ insertBy le x l ↔ a = x ∨ a ∈ l := by
  intro l
  induction l with
  | nil => simp [insertBy]
  | cons y t ih =>
    by_cases h : le x y = true
    · simp [insertBy, h]
    · simp [insertBy, h, ih]
      tauto

/-- Helper: insertion never yields the empty list. -/
theorem insertBy_ne_nil (le : List Char → List Char → Bool) (x : List Char) (l) :
    insertBy le x l ≠ [] := by
  cases l with
  | nil => simp [insertBy]
  | cons y t =>
    simp only [insertBy]
    split <;> simp

/-- Helper: sorting preserves membership. -/
theorem mem_sortBy (le : List Char → List Char → Bool) (a : List Char) :
    ∀ l, a ∈ sortBy le l ↔ a ∈ l := by
  intro l
  induction l with
  | nil => simp [sortBy]
  | cons x t ih => simp [sortBy, mem_insertBy, ih]

/-- Helper: sorting a nonempty list yields a nonempty list. -/
theorem sortBy_ne_nil (le : List Char → List Char → Bool) (l : List (List Char))
    (h : l ≠ []) : sortBy le l ≠ [] := by
  cases l with
  | nil => exact absurd rfl h
  | cons x t => exact insertBy_ne_nil le x (sortBy le t)

/-- Helper: insertion preserves sortedness for a total transitive order. -/
theorem pairwise_insertBy (le : List Char → List Char → Bool)
    (htot : ∀ a b, le a b = true ∨ le b a = true)
    (htrans : ∀ a b c, le a b = true → le b c = true → le a c = true)
    (x : List Char) :
    ∀ l, List.Pairwise (fun a b => le a b = true) l →
      List.Pairwise (fun a b => le a b = true) (insertBy le x l) := by
  intro l
  induction l with
  | nil =>
    intro _
    simp [insertBy]
  | cons y t ih =>
    intro hp
    obtain ⟨hy, ht⟩ := List.pairwise_cons.mp hp
    by_cases h : le x y = true
    · simp only [insertBy, h, if_true]
      refine List.pairwise_cons.mpr ⟨?_, hp⟩
      intro b hb
      rcases List.mem_cons.mp hb with rfl | hb'
      · exact h
      · exact htrans x y b h (hy b hb')
    · simp only [insertBy, h, if_false]
      refine List.pairwise_cons.mpr ⟨?_, ih ht⟩
      intro b hb
      rcases (mem_insertBy le x b t).mp hb with rfl | hb'
      · rcases htot b y with hxy | hyx
        · exact absurd hxy h
        · exact hyx
      · exact hy b hb'

/-- Helper: the insertion sort is sorted for a total transitive order. -/
theorem sortBy_pairwise (le : List Char → List Char → Bool)
    (htot : ∀ a b, le a b = true ∨ le b a = true)
    (htrans : ∀ a b c, le a b = true → le b c = true → le a c = true) :
    ∀ l, List.Pairwise (fun a b => le a b = true) (sortBy le l) := by
  intro l
  induction l with
  | nil => simp [sortBy]
  | cons x t ih => exact pairwise_insertBy le htot htrans x (sortBy le t) ih

/-- Helper: the last element of a sorted list dominates every element. -/
theorem getLast_max (le : List Char → List Char → Bool) :
    ∀ (l : List (List Char)) (m : List Char),
      List.Pairwise (fun a b => le a b = true) l →
      l.getLast? = some m → ∀ g ∈ l, g = m ∨ le g m = true := by
  intro l
  induction l with
  | nil =>
    intro m _ h
    simp at h
  | cons a t ih =>
    intro m hp hl g hg
    cases t with
    | nil =>
      simp at hl
      subst hl
      rcases List.mem_singleton.mp hg with rfl
      exact Or.inl rfl
    | cons b t' =>
      rw [List.getLast?_cons_cons] at hl
      obtain ⟨ha, ht⟩ := List.pairwise_cons.mp hp
      rcases List.mem_cons.mp hg with rfl | hg'
      · exact Or.inr (ha m (List.mem_of_mem_getLast? hl))
      · exact ih m ht hl g hg'

/-- Helper: the sort key order is reflexive. -/
theorem keyLe_refl (a : List Char) : keyLe a a = true := by
  simp [keyLe]

/-- Helper: the sort key order is total. -/
theorem keyLe_total (a b : List Char) : keyLe a b = true ∨ keyLe b a = true := by
  simp [keyLe, decide_eq_true_eq]
  omega

/-- Helper: the sort key order is transitive. -/
theorem keyLe_trans (a b c : List Char)
    (h1 : keyLe a b = true) (h2 : keyLe b c = true) : keyLe a c = true := by
  simp [keyLe, decide_eq_true_eq] at h1 h2 ⊢
  omega

/-- Helper: `sorted(lts, key)[-1]` yields a member of the list whose key
dominates every member's key. -/
theorem sortBy_keyLe_max (l0 : List Char) (ls : List (List Char)) :
    ∃ m, (sortBy keyLe (l0 :: ls)).getLast? = some m
      ∧ m ∈ l0 :: ls ∧ ∀ g ∈ l0 :: ls, keyLe g m = true := by
  have hne := sortBy_ne_nil keyLe (l0 :: ls) (by simp)
  obtain ⟨m, hm⟩ := Option.isSome_iff_exists.mp (List.getLast?_isSome.mpr hne)
  refine ⟨m, hm, (mem_sortBy keyLe m (l0 :: ls)).mp (List.mem_of_mem_getLast? hm), ?_⟩
  intro g hg
  have hgs : g ∈ sortBy keyLe (l0 :: ls) := (mem_sortBy keyLe g (l0 :: ls)).mpr hg
  rcases getLast_max keyLe (sortBy keyLe (l0 :: ls)) m
      (sortBy_pairwise keyLe keyLe_total keyLe_trans (l0 :: ls)) hm g hgs with rfl | h
  · exact keyLe_refl g
  · exact h

/-- C7 (counterexample): with candidates `data_host_V12.3.json` and
`data_host_V2.1.json`, both match the claim's LTS pattern
`data.*host_V<major>.<minor>.*json`, and the highest (major, minor) pair is
(12, 3); but the code's LTS filter accepts only single-digit versions
(`_[Vv][0-9].[0-9]`), so `V12.3` is excluded and `V2.1` is chosen —
refuting "the candidate with the highest (major, minor) pair is chosen for
every major/minor version values". -/
theorem manifest_selection_counterexample :
    selectDataJson (("host").toList)
        [("data_host_V12.3.json").toList, ("data_host_V2.1.json").toList]
      = SelectResult.picked (("data_host_V2.1.json").toList)
    ∧ spec_lts_match (("host").toList) (("data_host_V12.3.json").toList) = true
    ∧ findVKey (("data_host_V12.3.json").toList) = some (12, 3)
    ∧ findVKey (("data_host_V2.1.json").toList) = some (2, 1) := by
  decide

/-- C7 (amended): among the files matching `data.*<host>.*json`, if none
matches the code's LTS pattern `data.*<host>_[Vv][0-9].[0-9].*json`
(single-digit major and minor), the first plain match is chosen; if some do
and each carries an uppercase `_V<digits>.<digits>` occurrence, the
candidate with the highest (major, minor) key under the stable sort is
chosen (the last among key ties); if some LTS candidate lacks that
occurrence (for example a lowercase `v`), the selection raises instead of
choosing. -/
theorem manifest_selection_amended :
    (∀ (host t0 : List Char) (files ts : List (List Char)),
       files.filter (plainDataMatch host) = t0 :: ts →
       (t0 :: ts).filter (ltsDataMatch host) = [] →
       selectDataJson host files = SelectResult.picked t0)
    ∧ (∀ (host t0 l0 : List Char) (files ts ls : List (List Char)),
       files.filter (plainDataMatch host) = t0 :: ts →
       (t0 :: ts).filter (ltsDataMatch host) = l0 :: ls →
       (l0 :: ls).all (fun f => (findVKey f).isSome) = true →
       ∃ m, selectDataJson host files = SelectResult.picked m
         ∧ m ∈ l0 :: ls ∧ ∀ g ∈ l0 :: ls, keyLe g m = true)
    ∧ (∀ (host t0 l0 : List Char) (files ts ls : List (List Char)),
       files.filter (plainDataMatch host) = t0 :: ts →
       (t0 :: ts).filter (ltsDataMatch host) = l0 :: ls →
       (l0 :: ls).all (fun f => (findVKey f).isSome) = false →
       selectDataJson host files = SelectResult.keyError) := by
  refine ⟨?_, ?_, ?_⟩
  · intro host t0 files ts hpl hlts
    simp only [selectDataJson, hpl, hlts]
  · intro host t0 l0 files ts ls hpl hlts hall
    obtain ⟨m, hm, hmem, hmax⟩ := sortBy_keyLe_max l0 ls
    refine ⟨m, ?_, hmem, hmax⟩
    simp only [selectDataJson, hpl, hlts, hall, if_true, hm]
  · intro host t0 l0 files ts ls hpl hlts hall
    simp only [selectDataJson, hpl, hlts, hall]
    rfl

/-- C7 witness: two single-digit LTS candidates; the chosen manifest is a
member dominating both keys. -/
theorem manifest_selection_amended_witness :
    ∃ m, selectDataJson (("host").toList)
        [("data_host_V2.1.json").toList, ("data_host_V1.9.json").toList]
      = SelectResult.picked m
      ∧ m ∈ [("data_host_V2.1.json").toList, ("data_host_V1.9.json").toList]
      ∧ ∀ g ∈ [("data_host_V2.1.json").toList, ("data_host_V1.9.json").toList],
          keyLe g m = true :=
  manifest_selection_amended.2.1 (("host").toList) (("data_host_V2.1.json").toList)
    (("data_host_V2.1.json").toList)
    [("data_host_V2.1.json").toList, ("data_host_V1.9.json").toList]
    [("data_host_V1.9.json").toList] [("data_host_V1.9.json").toList]
    (by decide) (by decide) (by decide)

/-- Helper: one unfolding step of the fuelled split. -/
theorem afterLastFuel_succ (pat : List Char) (f : Nat) (s : List Char) :
    afterLastFuel pat (f + 1) s =
      if (pat.isPrefixOf s && !pat.isEmpty) = true then
        afterLastFuel pat f (s.drop pat.length)
      else
        match s with
        | [] => []
        | _ :: t => if containsSub pat t = true then afterLastFuel pat f t else s := rfl

/-- Helper: any fuel beyond the text length gives the same split result. -/
theorem afterLastFuel_irrel (pat : List Char) :
    ∀ (f1 f2 : Nat) (s : List Char), s.length < f1 → s.length < f2 →
      afterLastFuel pat f1 s = afterLastFuel pat f2 s := by
  intro f1
  induction f1 with
  | zero =>
    intro f2 s h1 _
    exact absurd h1 (Nat.not_lt_zero _)
  | succ f1 ih =>
    intro f2 s h1 h2
    cases f2 with
    | zero => exact absurd h2 (Nat.not_lt_zero _)
    | succ f2 =>
      by_cases hpre : (pat.isPrefixOf s && !pat.isEmpty) = true
      · simp only [afterLastFuel, hpre, if_true]
        have hpre1 : pat.isPrefixOf s = true := by
          have h := hpre
          simp only [Bool.and_eq_true] at h
          exact h.1
        have hlen : pat.length ≤ s.length :=
          (List.isPrefixOf_iff_prefix.mp hpre1).length_le
        have hplen : 1 ≤ pat.length := by
          cases pat with
          | nil => simp at hpre
          | cons a b => simp
        apply ih
        · simp
          omega
        · simp
          omega
      · have hpre' : (pat.isPrefixOf s && !pat.isEmpty) = false := by
          simpa using hpre
        cases s with
        | nil => simp [afterLastFuel, hpre']
        | cons c t =>
          by_cases hct : containsSub pat t = true
          · simp only [afterLastFuel, hpre', Bool.false_eq_true, if_false, hct, if_true]
            apply ih
            · simp at h1
              omega
            · simp at h2
              omega
          · have hct' : containsSub pat t = false := by simpa using hct
            simp [afterLastFuel, hpre', hct']

/-- Helper: a text without the marker splits to itself. -/
theorem afterLast_of_not_contains (pat s : List Char) (h : containsSub pat s = false) :
    afterLastSplit pat s = s := by
  unfold afterLastSplit
  cases s with
  | nil =>
    have hcond : (pat.isPrefixOf [] && !pat.isEmpty) = false := by
      cases pat with
      | nil => simp
      | cons a b => simp [List.isPrefixOf]
    simp [afterLastFuel, hcond]
  | cons c t =>
    simp only [containsSub, Bool.or_eq_false_iff] at h
    have hcond : (pat.isPrefixOf (c :: t) && !pat.isEmpty) = false := by
      simp [h.1]
    simp [afterLastFuel, hcond, h.2]

/-- Helper: the split skips a marker occurrence at the head. -/
theorem afterLast_cons_marker (pat suf : List Char) (hp : pat ≠ []) :
    afterLastSplit pat (pat ++ suf) = afterLastSplit pat suf := by
  have hplen : 1 ≤ pat.length := by
    cases pat with
    | nil => exact absurd rfl hp
    | cons a b => simp
  have hcond : (pat.isPrefixOf (pat ++ suf) && !pat.isEmpty) = true := by
    have h1 : pat.isPrefixOf (pat ++ suf) = true :=
      List.isPrefixOf_iff_prefix.mpr (List.prefix_append pat suf)
    have h2 : pat.isEmpty = false := by
      cases pat with
      | nil => exact absurd rfl hp
      | cons a b => rfl
    simp [h1, h2]
  show afterLastFuel pat ((pat ++ suf).length + 1) (pat ++ suf) = afterLastSplit pat suf
  rw [afterLastFuel_succ, if_pos hcond, List.drop_left]
  unfold afterLastSplit
  apply afterLastFuel_irrel
  · simp
    omega
  · omega

/-- Helper: the split steps over a non-occurrence head character when the
marker still occurs later. -/
theorem afterLast_cons_step (pat : List Char) (c : Char) (s : List Char)
    (h1 : pat.isPrefixOf (c :: s) = false) (h2 : containsSub pat s = true) :
    afterLastSplit pat (c :: s) = afterLastSplit pat s := by
  have hcond : (pat.isPrefixOf (c :: s) && !pat.isEmpty) = false := by simp [h1]
  show afterLastFuel pat ((c :: s).length + 1) (c :: s) = afterLastSplit pat s
  rw [afterLastFuel_succ, if_neg (by simp [hcond])]
  simp only [h2, if_true]
  unfold afterLastSplit
  apply afterLastFuel_irrel
  · simp
  · omega

/-- Helper: substring containment is occurrence at some position. -/
theorem containsSub_iff (pat : List Char) :
    ∀ s, containsSub pat s = true ↔ ∃ i, occursAtB pat s i = true := by
  intro s
  induction s with
  | nil =>
    constructor
    · intro h
      exact ⟨0, by simpa [occursAtB, containsSub] using h⟩
    · rintro ⟨i, hi⟩
      simpa [containsSub, occursAtB] using hi
  | cons c t ih =>
    simp only [containsSub, Bool.or_eq_true, ih]
    constructor
    · rintro (h | ⟨i, hi⟩)
      · exact ⟨0, by simpa [occursAtB] using h⟩
      · exact ⟨i + 1, by simpa [occursAtB] using hi⟩
    · rintro ⟨i, hi⟩
      cases i with
      | zero => exact Or.inl (by simpa [occursAtB] using hi)
      | succ j => exact Or.inr ⟨j, by simpa [occursAtB] using hi⟩

/-- Helper: a marker planted in the middle of a text is contained in it. -/
theorem containsSub_append_mid (pat a b : List Char) :
    containsSub pat (a ++ pat ++ b) = true := by
  apply (containsSub_iff pat _).mpr
  refine ⟨a.length, ?_⟩
  rw [occursAtB, List.append_assoc, List.drop_left]
  exact List.isPrefixOf_iff_prefix.mpr (List.prefix_append pat b)

/-- Helper: an occurrence of a nonempty marker makes the occurrence count
positive. -/
theorem countOcc_pos (pat : List Char) (hp : pat ≠ []) :
    ∀ (s : List Char) (i : Nat), occursAtB pat s i = true → 1 ≤ countOcc pat s := by
  intro s
  induction s with
  | nil =>
    intro i h
    rw [occursAtB, List.drop_nil] at h
    have : pat = [] := List.prefix_nil.mp (List.isPrefixOf_iff_prefix.mp h)
    exact absurd this hp
  | cons c t ih =>
    intro i h
    cases i with
    | zero =>
      have h0 : pat.isPrefixOf (c :: t) = true := by simpa [occursAtB] using h
      simp [countOcc, h0]
    | succ j =>
      have := ih j (by simpa [occursAtB] using h)
      simp only [countOcc]
      omega

/-- Helper: two distinct occurrences of a nonempty marker make the count at
least two. -/
theorem countOcc_two (pat : List Char) (hp : pat ≠ []) :
    ∀ (s : List Char) (i j : Nat), i < j →
      occursAtB pat s i = true → occursAtB pat s j = true → 2 ≤ countOcc pat s := by
  intro s
  induction s with
  | nil =>
    intro i j _ _ hj
    rw [occursAtB, List.drop_nil] at hj
    have : pat = [] := List.prefix_nil.mp (List.isPrefixOf_iff_prefix.mp hj)
    exact absurd this hp
  | cons c t ih =>
    intro i j hij hi hj
    cases i with
    | zero =>
      cases j with
      | zero => omega
      | succ j' =>
        have h0 : pat.isPrefixOf (c :: t) = true := by simpa [occursAtB] using hi
        have h1 : 1 ≤ countOcc pat t :=
          countOcc_pos pat hp t j' (by simpa [occursAtB] using hj)
        simp only [countOcc, h0, if_true]
        omega
    | succ i' =>
      cases j with
      | zero => omega
      | succ j' =>
        have := ih i' j' (by omega) (by simpa [occursAtB] using hi)
          (by simpa [occursAtB] using hj)
        simp only [countOcc]
        omega

/-- Helper: when the marker's only occurrence in `pre ++ pat ++ suf` is the
planted one, the split returns exactly `suf`. -/
theorem afterLast_unique (pat : List Char) (hp : pat ≠ []) :
    ∀ (pre suf : List Char),
      (∀ i, occursAtB pat (pre ++ pat ++ suf) i = true → i = pre.length) →
      afterLastSplit pat (pre ++ pat ++ suf) = suf := by
  intro pre
  induction pre with
  | nil =>
    intro suf huniq
    simp only [List.nil_append]
    rw [afterLast_cons_marker pat suf hp]
    apply afterLast_of_not_contains
    cases hcs : containsSub pat suf with
    | false => rfl
    | true =>
      exfalso
      obtain ⟨i, hi⟩ := (containsSub_iff pat suf).mp hcs
      have hocc : occursAtB pat ([] ++ pat ++ suf) (pat.length + i) = true := by
        rw [occursAtB, List.nil_append, List.drop_append]
        exact hi
      have hlen0 := huniq (pat.length + i) hocc
      rw [List.length_nil] at hlen0
      have hpl : pat.length = 0 := by omega
      exact hp (List.eq_nil_of_length_eq_zero hpl)
  | cons c pre' ih =>
    intro suf huniq
    have htext : (c :: pre') ++ pat ++ suf = c :: (pre' ++ pat ++ suf) := by
      simp
    rw [htext]
    have hstep : pat.isPrefixOf (c :: (pre' ++ pat ++ suf)) = false := by
      cases hpre : pat.isPrefixOf (c :: (pre' ++ pat ++ suf)) with
      | false => rfl
      | true =>
        exfalso
        have hocc : occursAtB pat ((c :: pre') ++ pat ++ suf) 0 = true := by
          rw [occursAtB, List.drop_zero, htext]
          exact hpre
        have := huniq 0 hocc
        simp at this
    have hcontains : containsSub pat (pre' ++ pat ++ suf) = true :=
      containsSub_append_mid pat pre' suf
    rw [afterLast_cons_step pat c _ hstep hcontains]
    apply ih
    intro i hi
    have hocc : occursAtB pat ((c :: pre') ++ pat ++ suf) (i + 1) = true := by
      rw [occursAtB, htext]
      exact hi
    have := huniq (i + 1) hocc
    simp at this
    omega

/-- Helper: a single overall occurrence pins every occurrence to the
planted position. -/
theorem unique_of_countOcc_one (pat : List Char) (hp : pat ≠ []) (pre suf : List Char)
    (h1 : countOcc pat (pre ++ pat ++ suf) = 1) :
    ∀ i, occursAtB pat (pre ++ pat ++ suf) i = true → i = pre.length := by
  intro i hi
  by_contra hne
  have hpre : occursAtB pat (pre ++ pat ++ suf) pre.length = true := by
    rw [occursAtB, List.append_assoc, List.drop_left]
    exact List.isPrefixOf_iff_prefix.mpr (List.prefix_append pat suf)
  rcases Nat.lt_or_ge i pre.length with hlt | hge
  · have := countOcc_two pat hp _ i pre.length hlt hi hpre
    omega
  · have hgt : pre.length < i := by omega
    have := countOcc_two pat hp _ pre.length i hgt hpre hi
    omega

/-- Helper: a marker without a nontrivial border (no proper strict suffix
that is also a prefix) cannot overlap itself: occurrences at position 0 and
at a position strictly between 0 and the marker length are contradictory. -/
theorem no_self_overlap (pat : List Char)
    (hnb : ∀ k, k < pat.length → 0 < k → (pat.drop k).isPrefixOf pat = false)
    (s : List Char) (p : Nat)
    (h0 : pat.isPrefixOf s = true) (hplant : occursAtB pat s p = true)
    (hpos : 0 < p) (hlt : p < pat.length) : False := by
  obtain ⟨r, hr⟩ := List.isPrefixOf_iff_prefix.mp h0
  have hdrop : s.drop p = pat.drop p ++ r := by
    rw [← hr, List.drop_append_of_le_length (by omega)]
  rw [occursAtB, hdrop] at hplant
  obtain ⟨q, hq⟩ := List.isPrefixOf_iff_prefix.mp hplant
  have hlen1 : (pat.drop p).length = pat.length - p := by simp
  have htake : pat.take (pat.length - p) = pat.drop p := by
    have e1 : (pat ++ q).take (pat.length - p) = pat.take (pat.length - p) :=
      List.take_append_of_le_length (by omega)
    have e2 : (pat.drop p ++ r).take (pat.length - p) = pat.drop p := by
      rw [List.take_append_of_le_length (by omega), List.take_of_length_le (by omega)]
    rw [← e1, hq, e2]
  have hpref2 : (pat.drop p).isPrefixOf pat = true := by
    rw [← htake]
    exact List.isPrefixOf_iff_prefix.mpr (List.take_prefix _ _)
  have := hnb p hlt hpos
  rw [hpref2] at this
  simp at this

/-- Helper: for a border-free nonempty marker, when no occurrence starts
after the planted one at `pre.length` (it is the final occurrence), the
split returns exactly the text after it — occurrences before or inside
`pre` are allowed. -/
theorem afterLast_last (pat : List Char) (hp : pat ≠ [])
    (hnb : ∀ k, k < pat.length → 0 < k → (pat.drop k).isPrefixOf pat = false) :
    ∀ (n : Nat) (pre suf : List Char), pre.length = n →
      (∀ i, occursAtB pat (pre ++ pat ++ suf) i = true → i ≤ pre.length) →
      afterLastSplit pat (pre ++ pat ++ suf) = suf := by
  have hpl : 1 ≤ pat.length := by
    cases pat with
    | nil => exact absurd rfl hp
    | cons a b => simp
  intro n
  induction n using Nat.strong_induction_on with
  | _ n IH =>
    intro pre suf hlen hlast
    cases pre with
    | nil =>
      simp only [List.nil_append]
      rw [afterLast_cons_marker pat suf hp]
      apply afterLast_of_not_contains
      cases hcs : containsSub pat suf with
      | false => rfl
      | true =>
        exfalso
        obtain ⟨i, hi⟩ := (containsSub_iff pat suf).mp hcs
        have hocc : occursAtB pat ([] ++ pat ++ suf) (pat.length + i) = true := by
          rw [occursAtB, List.nil_append, List.drop_append]
          exact hi
        have hle := hlast (pat.length + i) hocc
        rw [List.length_nil] at hle
        omega
    | cons c pre' =>
      by_cases hpref : pat.isPrefixOf ((c :: pre') ++ pat ++ suf) = true
      · have hplant : occursAtB pat ((c :: pre') ++ pat ++ suf) (c :: pre').length = true := by
          rw [occursAtB, List.append_assoc, List.drop_left]
          exact List.isPrefixOf_iff_prefix.mpr (List.prefix_append pat suf)
        have hL : pat.length ≤ (c :: pre').length := by
          by_contra hlt
          exact no_self_overlap pat hnb _ _ hpref hplant (by simp) (by omega)
        have h1 : ((c :: pre') ++ pat ++ suf).take pat.length = pat := by
          obtain ⟨r, hr⟩ := List.isPrefixOf_iff_prefix.mp hpref
          rw [← hr, List.take_left' rfl]
        have h2 : ((c :: pre') ++ pat ++ suf).take pat.length
            = (c :: pre').take pat.length := by
          rw [List.append_assoc]
          exact List.take_append_of_le_length hL
        have h3 : (c :: pre').take pat.length = pat := by
          rw [← h2, h1]
        have hpre2 : pat ++ ((c :: pre').drop pat.length ++ pat ++ suf)
            = (c :: pre') ++ pat ++ suf := by
          calc pat ++ ((c :: pre').drop pat.length ++ pat ++ suf)
              = ((c :: pre').take pat.length ++ (c :: pre').drop pat.length) ++ pat ++ suf := by
                rw [h3]
                simp [List.append_assoc]
            _ = (c :: pre') ++ pat ++ suf := by rw [List.take_append_drop]
        rw [← hpre2, afterLast_cons_marker pat _ hp]
        apply IH (((c :: pre').drop pat.length).length) ?_ _ suf rfl ?_
        · simp at hlen ⊢
          omega
        · intro i hi
          have hocc : occursAtB pat ((c :: pre') ++ pat ++ suf) (pat.length + i) = true := by
            rw [occursAtB, ← hpre2, List.drop_append]
            exact hi
          have hle := hlast (pat.length + i) hocc
          simp at hle ⊢
          omega
      · have hcons : (c :: pre') ++ pat ++ suf = c :: (pre' ++ pat ++ suf) := by
          simp
        have hprefF : pat.isPrefixOf (c :: (pre' ++ pat ++ suf)) = false := by
          rw [← hcons]
          cases h' : pat.isPrefixOf ((c :: pre') ++ pat ++ suf) with
          | false => rfl
          | true => exact absurd h' hpref
        rw [hcons, afterLast_cons_step pat c _ hprefF (containsSub_append_mid pat pre' suf)]
        apply IH pre'.length ?_ pre' suf rfl ?_
        · simp at hlen
          omega
        · intro i hi
          have hocc : occursAtB pat ((c :: pre') ++ pat ++ suf) (i + 1) = true := by
            rw [occursAtB, hcons]
            exact hi
          have hle := hlast (i + 1) hocc
          simp at hle
          omega

/-- Helper: a bounded scan certifying that every marker occurrence starts
at or before position `p` gives the unbounded statement (positions past the
text length cannot host a nonempty marker). -/
theorem lastOcc_of_bounded (pat text : List Char) (p : Nat) (hp : pat ≠ [])
    (h : ((List.range (text.length + 1)).all
      (fun i => !occursAtB pat text i || decide (i ≤ p))) = true) :
    ∀ i, occursAtB pat text i = true → i ≤ p := by
  intro i hi
  by_cases hib : i < text.length + 1
  · have hmem := List.all_eq_true.mp h i (List.mem_range.mpr hib)
    rw [hi] at hmem
    simpa using hmem
  · exfalso
    rw [occursAtB, List.drop_eq_nil_of_le (by omega)] at hi
    exact hp (List.prefix_nil.mp (List.isPrefixOf_iff_prefix.mp hi))

/-- Helper: a text beginning with 64 hex characters gives exactly them as
the leftmost 64-hex run. -/
theorem find64Run_exact (hex rest : List Char) (hlen : hex.length = 64)
    (hhex : hex.all isHexChar = true) : find64Run (hex ++ rest) = some hex := by
  cases hex with
  | nil => simp at hlen
  | cons h0 ht =>
    rw [List.cons_append]
    have hlen2 : 64 ≤ (h0 :: (ht ++ rest)).length := by
      simp at hlen ⊢
      omega
    have htake : (h0 :: (ht ++ rest)).take 64 = h0 :: ht := by
      rw [← List.cons_append, List.take_left' hlen]
    have hdec : decide (64 ≤ (h0 :: (ht ++ rest)).length) = true := decide_eq_true hlen2
    simp only [find64Run]
    rw [htake]
    simp [hdec, hhex]
    intro hcontra
    simp at hlen
    omega

/-- Helper: when fewer than 64 hex characters remain after stripping, the
text has no 64-hex run at all. -/
theorem find64Run_none (s : List Char) (h : (s.filter isHexChar).length < 64) :
    find64Run s = none := by
  induction s with
  | nil => rfl
  | cons c t ih =>
    have hcond : (64 ≤ (c :: t).length && ((c :: t).take 64).all isHexChar) = false := by
      cases hc : (64 ≤ (c :: t).length && ((c :: t).take 64).all isHexChar) with
      | false => rfl
      | true =>
        exfalso
        have h64 : 64 ≤ (c :: t).length := by
          have hc' := hc
          simp only [Bool.and_eq_true, decide_eq_true_eq] at hc'
          exact hc'.1
        have hall : ((c :: t).take 64).all isHexChar = true := by
          have hc' := hc
          simp only [Bool.and_eq_true] at hc'
          exact hc'.2
        have hsplit : (c :: t) = (c :: t).take 64 ++ (c :: t).drop 64 :=
          (List.take_append_drop 64 (c :: t)).symm
        have hfeq : ((c :: t).take 64).filter isHexChar = (c :: t).take 64 :=
          List.filter_eq_self.mpr (by
            intro a ha
            exact List.all_eq_true.mp hall a ha)
        have hge : 64 ≤ ((c :: t).filter isHexChar).length := by
          conv_lhs => rw [show (64 : Nat) = (((c :: t).take 64).filter isHexChar).length from by
            rw [hfeq, List.length_take_of_le h64]]
          rw [hsplit]
          rw [List.filter_append]
          simp
        omega
    simp only [find64Run, hcond, Bool.false_eq_true, if_false]
    apply ih
    have hmono : (t.filter isHexChar).length ≤ ((c :: t).filter isHexChar).length := by
      by_cases hc : isHexChar c = true <;> simp [List.filter_cons, hc]
    omega

/-- C3 (counterexample): for the input `Rondom numbers are:` followed by 64
lowercase `a`, extraction succeeds and returns the 64 characters exactly as
they appear — not their uppercase conversion — refuting "returns exactly
those 64 characters converted to uppercase". -/
theorem nonce_extraction_counterexample :
    extract_random_number (rondomMarker ++ List.replicate 64 'a')
      = some (List.replicate 64 'a')
    ∧ (List.replicate 64 'a').map Char.toUpper ≠ List.replicate 64 'a' := by
  constructor
  · decide
  · decide

/-- C3 (amended): when the final occurrence of the marker in the text (the
planted one at position `pre.length`, with no occurrence starting later) is
immediately followed by 64 hex characters, extraction returns exactly those
64 characters, unchanged (no case conversion) — earlier occurrences of the
marker, inside `pre`, are allowed; and whenever stripping non-hex
characters from the text after the final marker leaves fewer than 64 hex
characters (which also rules out any direct 64-hex run), extraction
returns nothing. -/
theorem nonce_extraction_amended :
    (∀ (pre hex rest : List Char),
       hex.length = 64 → hex.all isHexChar = true →
       (∀ i, occursAtB rondomMarker (pre ++ rondomMarker ++ (hex ++ rest)) i = true →
          i ≤ pre.length) →
       extract_random_number (pre ++ rondomMarker ++ (hex ++ rest)) = some hex)
    ∧ (∀ text : List Char, containsSub rondomMarker text = true →
       ((afterLastSplit rondomMarker text).filter isHexChar).length < 64 →
       extract_random_number text = none) := by
  have hp : rondomMarker ≠ [] := by decide
  have hnb : ∀ k, k < rondomMarker.length → 0 < k →
      (rondomMarker.drop k).isPrefixOf rondomMarker = false := by decide
  constructor
  · intro pre hex rest hlen hhex hlast
    have hsplit := afterLast_last rondomMarker hp hnb pre.length pre (hex ++ rest) rfl hlast
    simp only [extract_random_number,
      containsSub_append_mid rondomMarker pre (hex ++ rest), if_true]
    rw [hsplit, find64Run_exact hex rest hlen hhex]
  · intro text hct hfl
    simp only [extract_random_number, hct, if_true]
    rw [find64Run_none _ hfl]
    have : ¬ 64 ≤ ((afterLastSplit rondomMarker text).filter isHexChar).length := by
      omega
    simp [this]

/-- C3 witness: a text that contains the marker twice — marker, junk `zz`,
marker, 64 hex characters — so the final occurrence is the second one;
every occurrence starts at or before position 21 and extraction returns
exactly the 64 characters after the final marker. -/
theorem nonce_extraction_amended_witness :
    ((List.range
        (((rondomMarker ++ ("zz").toList) ++ rondomMarker
          ++ (List.replicate 64 'B' ++ [])).length + 1)).all
      (fun i => !occursAtB rondomMarker
        ((rondomMarker ++ ("zz").toList) ++ rondomMarker
          ++ (List.replicate 64 'B' ++ [])) i
        || decide (i ≤ (rondomMarker ++ ("zz").toList).length))) = true
    ∧ extract_random_number
        ((rondomMarker ++ ("zz").toList) ++ rondomMarker ++ (List.replicate 64 'B' ++ []))
        = some (List.replicate 64 'B') := by
  refine ⟨by decide, ?_⟩
  refine nonce_extraction_amended.1 (rondomMarker ++ ("zz").toList)
    (List.replicate 64 'B') [] (by decide) (by decide) ?_
  exact lastOcc_of_bounded rondomMarker _ _ (by decide) (by decide)
